import Mathlib

/-!
Shallow embedding of the Composite pattern implementation
(src/2 - Structural Patterns/composite.py) and proofs about it.

The Python file defines:
* class File (the leaf): fields name, content; operation() returns "Leaf".
* class Component (abstract): name, a parent property, and default add/remove
  methods with empty bodies.
* class Folder (the container): _list_children, add_file / add_folder append
  to the list, remove_file / remove_folder have body pass, and operation()
  collects child.operation() over the children in order and returns
  the string Branch(r1+...+rn).
-/

namespace Composite

/-- Content of a file: Python annotates it as str or bytes. -/
inductive Content where
  | str (s : String)
  | bytes (b : List UInt8)
deriving DecidableEq, Repr

/-- Embeds class File: a leaf with a name and a content. -/
structure File where
  name : String
  content : Content
deriving DecidableEq, Repr

/-- Embeds File.operation: the body is return "Leaf". -/
def File.operation (_ : File) : String := "Leaf"

/-- A child stored in Folder._list_children is a File or a Folder.
The folder case carries the fields of a Folder object: its name, its
_parent reference (modelled as an opaque optional reference id, None when
the attribute was never set) and its _list_children. -/
inductive Entry where
  | file (f : File)
  | folder (name : String) (parent : Option Nat) (children : List Entry)

/-- The state of a Folder object: name (from Component.__init__), the
_parent reference (None when never set) and _list_children. -/
structure Folder where
  name : String
  parent : Option Nat
  _list_children : List Entry

/-- Embeds Folder.__init__(name): super().__init__(name) sets the name,
_parent stays unset, and _list_children = []. -/
def Folder.init (name : String) : Folder :=
  { name := name, parent := none, _list_children := [] }

/-- View a Folder object as a child entry of another folder. -/
def Folder.toEntry (fo : Folder) : Entry :=
  .folder fo.name fo.parent fo._list_children

/-- Embeds Folder.add_file: self._list_children.append(file). -/
def Folder.add_file (self : Folder) (file : File) : Folder :=
  { self with _list_children := self._list_children ++ [.file file] }

/-- Embeds Folder.add_folder: self._list_children.append(folder). -/
def Folder.add_folder (self : Folder) (folder : Folder) : Folder :=
  { self with _list_children := self._list_children ++ [folder.toEntry] }

/-- Embeds Folder.remove_file: the body is pass, so the state is returned
unchanged. -/
def Folder.remove_file (self : Folder) (_file : File) : Folder := self

/-- Embeds Folder.remove_folder: the body is pass, so the state is returned
unchanged. -/
def Folder.remove_folder (self : Folder) (_folder : Folder) : Folder := self

/-- Embeds the Python expression sep.join(results) for sep = "+":
empty list gives "", a singleton gives its element, otherwise the elements
separated by "+". -/
def joinPlus : List String → String
  | [] => ""
  | [s] => s
  | s :: s2 :: rest => s ++ "+" ++ joinPlus (s2 :: rest)

mutual

/-- Embeds operation() on a child: dynamic dispatch to File.operation or
Folder.operation. The folder body loops over the children appending
child.operation() to results, then returns f-string Branch(joined). -/
def Entry.operation : Entry → String
  | .file f => f.operation
  | .folder _ _ cs => "Branch(" ++ joinPlus (operationList cs) ++ ")"

/-- The results list built by the loop in Folder.operation. -/
def operationList : List Entry → List String
  | [] => []
  | c :: cs => c.operation :: operationList cs

end

/-- Embeds Folder.operation on a Folder object. -/
def Folder.operation (self : Folder) : String :=
  "Branch(" ++ joinPlus (operationList self._list_children) ++ ")"

/-- The tail of a nonempty join: one separator and one element per item. -/
def plusTail : List String → String
  | [] => ""
  | a :: as => "+" ++ a ++ plusTail as

/-! ## State-passing evaluator for the effect claims

The Python body of Folder.operation only reads: it builds a local results
list and mutates neither self nor the children. The state-passing evaluator
below mirrors the body while returning the post-call state of the receiver,
so that the absence of mutation is a theorem rather than an assumption. -/

mutual

/-- operation() returning both the result and the state of the visited
entry after the call (fields are re-read after the loop). -/
def Entry.operationS : Entry → String × Entry
  | .file f => (f.operation, .file f)
  | .folder n p cs =>
      ("Branch(" ++ joinPlus (operationSList cs).1 ++ ")",
       .folder n p (operationSList cs).2)

/-- The loop of Folder.operation: results collected and the child list as
left by the recursive calls. -/
def operationSList : List Entry → List String × List Entry
  | [] => ([], [])
  | c :: cs =>
      (c.operationS.1 :: (operationSList cs).1,
       c.operationS.2 :: (operationSList cs).2)

end

/-- Folder.operation on a Folder object, state-passing form. -/
def Folder.operationS (self : Folder) : String × Folder :=
  ("Branch(" ++ joinPlus (operationSList self._list_children).1 ++ ")",
   { self with _list_children := (operationSList self._list_children).2 })

/-! ## Character-level view of operation() and a parser for its output

To settle how swapping two children affects the result, the output
language of operation() is analysed: a printer at the level of character
lists, and a parser recovering the shape of the tree from the printed
string. The roundtrip shows printed outputs are uniquely decodable, which
pins down exactly when two joins coincide. -/

/-- The shape of a tree: nesting structure only. -/
inductive Shape where
  | leaf
  | branch (ss : List Shape)

mutual

/-- The characters of operation() output. -/
def opData : Entry → List Char
  | .file _ => ['L', 'e', 'a', 'f']
  | .folder _ _ cs => ['B', 'r', 'a', 'n', 'c', 'h', '('] ++ opDataList cs ++ [')']

/-- The characters of the join of the children results. -/
def opDataList : List Entry → List Char
  | [] => []
  | [c] => opData c
  | c :: c2 :: cs => opData c ++ '+' :: opDataList (c2 :: cs)

end

mutual

/-- The shape of an entry. -/
def shapeOf : Entry → Shape
  | .file _ => .leaf
  | .folder _ _ cs => .branch (shapeOfList cs)

/-- The shapes of a child list. -/
def shapeOfList : List Entry → List Shape
  | [] => []
  | c :: cs => shapeOf c :: shapeOfList cs

end

mutual

/-- Fuel needed to parse the output of an entry. -/
def esize : Entry → Nat
  | .file _ => 1
  | .folder _ _ cs => lsize cs + 1

/-- Fuel needed to parse the join of a child list. -/
def lsize : List Entry → Nat
  | [] => 1
  | c :: cs => esize c + lsize cs + 1

end

mutual

/-- Parse one printed tree from the front of a character list, returning
its shape and the unconsumed remainder; none on fuel exhaustion or
ill-formed input. -/
def parseF : Nat → List Char → Option (Shape × List Char)
  | 0, _ => none
  | n + 1, l =>
      if l.take 4 = ['L', 'e', 'a', 'f'] then some (.leaf, l.drop 4)
      else if l.take 7 = ['B', 'r', 'a', 'n', 'c', 'h', '('] then
        if (l.drop 7).take 1 = [')'] then some (.branch [], (l.drop 7).drop 1)
        else
          (parseListF n (l.drop 7)).bind fun sr =>
            if sr.2.take 1 = [')'] then some (.branch sr.1, sr.2.drop 1) else none
      else none

/-- Parse a nonempty plus-separated sequence of printed trees. -/
def parseListF : Nat → List Char → Option (List Shape × List Char)
  | 0, _ => none
  | n + 1, l =>
      (parseF n l).bind fun sr =>
        if sr.2.take 1 = ['+'] then
          (parseListF n (sr.2.drop 1)).map fun tr => (sr.1 :: tr.1, tr.2)
        else some ([sr.1], sr.2)

end

/-! ## Sample objects used by concrete counterexamples and witnesses -/

/-- A concrete File, as in the spec scenario. -/
def sampleFile : File := ⟨"a.txt", .str "hi"⟩

/-- A concrete Folder holding exactly [sampleFile]. -/
def sampleFolder : Folder := ⟨"root", none, [.file sampleFile]⟩

/-! ## Object-graph model for the termination claim

Python folders are heap objects holding references, so a Folder can be
made (directly or transitively) its own child, and operation() then
recurses forever. The model below is an arena of folder objects indexed by
id; evaluation carries explicit fuel, and acyclicity is expressed by a
rank (topological height) that strictly drops from a folder to every
folder it references. -/

/-- A child as stored in the object graph: an inline File object or a
reference to another Folder object. -/
inductive GChild where
  | file (f : File)
  | ref (id : Nat)
deriving DecidableEq, Repr

/-- The heap: folder object number i has child list at index i; ids out of
range denote folders with no children. -/
def Store := List (List GChild)

/-- The child list of folder id in the store. -/
def childrenOf (st : Store) (id : Nat) : List GChild :=
  st.getD id []

/-- One pass of the loop in Folder.operation over a child list, given the
evaluator available for referenced subfolders; none propagates fuel
exhaustion. -/
def opFuelChildren (ev : Nat → Option String) : List GChild → Option (List String)
  | [] => some []
  | .file f :: cs => (opFuelChildren ev cs).map (f.operation :: ·)
  | .ref j :: cs =>
      match ev j with
      | none => none
      | some s => (opFuelChildren ev cs).map (s :: ·)

/-- operation() on the object graph with fuel bounding the recursion
depth: none means the call did not complete within that depth. -/
def opFuel (st : Store) : Nat → Nat → Option String
  | 0, _ => none
  | n + 1, id =>
      (opFuelChildren (fun j => opFuel st n j) (childrenOf st id)).map
        fun rs => "Branch(" ++ joinPlus rs ++ ")"

/-- Decidable acyclicity certificate: every folder reference goes to a
folder of strictly smaller rank. -/
def rankOk (st : Store) (rank : List Nat) : Bool :=
  (List.range st.length).all fun i =>
    (childrenOf st i).all fun c =>
      match c with
      | .file _ => true
      | .ref j => decide (rank.getD j 0 < rank.getD i 0)

/-! ## Shape of a tree: the nesting structure with names and contents erased -/

mutual

/-- Two entries have the same shape when they are both files, or both
folders whose child lists have pairwise the same shape; names, contents
and parent references are ignored. -/
def sameShape : Entry → Entry → Bool
  | .file _, .file _ => true
  | .folder _ _ cs, .folder _ _ ds => sameShapeList cs ds
  | _, _ => false

/-- Pointwise same shape on child lists of equal length. -/
def sameShapeList : List Entry → List Entry → Bool
  | [], [] => true
  | c :: cs, d :: ds => sameShape c d && sameShapeList cs ds
  | _, _ => false

end

theorem operation_toEntry (fo : Folder) : fo.toEntry.operation = fo.operation := rfl

theorem operationList_eq_map (cs : List Entry) :
    operationList cs = cs.map Entry.operation := by
  induction cs with
  | nil => rfl
  | cons c cs ih => simp [operationList, ih]

/-! ## Generic string helpers -/

theorem string_ext {s t : String} (h : s.data = t.data) : s = t :=
  congrArg String.mk h

theorem sappend_assoc (a b c : String) : a ++ b ++ c = a ++ (b ++ c) :=
  string_ext (by simp)

theorem sappend_empty (a : String) : a ++ "" = a :=
  string_ext (by simp)

theorem sempty_append (a : String) : "" ++ a = a :=
  string_ext (by simp)

theorem joinPlus_cons : ∀ (a : String) (as : List String),
    joinPlus (a :: as) = a ++ plusTail as
  | _, [] => by simp [joinPlus, plusTail, sappend_empty]
  | a, b :: bs => by
      have ih := joinPlus_cons b bs
      simp [joinPlus, plusTail, ih, sappend_assoc]

theorem intercalate_go_spec (as : List String) (acc : String) :
    String.intercalate.go acc "+" as = acc ++ plusTail as := by
  induction as generalizing acc with
  | nil => simp [String.intercalate.go, plusTail, sappend_empty]
  | cons a as ih => simp [String.intercalate.go, plusTail, ih, sappend_assoc]

/-- The hand-rolled join used in the embedding agrees with the library
separator join. -/
theorem joinPlus_eq_intercalate (l : List String) :
    joinPlus l = String.intercalate "+" l := by
  cases l with
  | nil => rfl
  | cons a as => rw [String.intercalate, intercalate_go_spec, joinPlus_cons]

mutual

theorem opS_snd : ∀ e : Entry, e.operationS.2 = e
  | .file _ => rfl
  | .folder n p cs => by rw [Entry.operationS, opSList_snd cs]

theorem opSList_snd : ∀ cs : List Entry, (operationSList cs).2 = cs
  | [] => rfl
  | c :: cs => by rw [operationSList]; simp [opS_snd c, opSList_snd cs]

end

mutual

theorem opS_fst : ∀ e : Entry, e.operationS.1 = e.operation
  | .file _ => rfl
  | .folder n p cs => by rw [Entry.operationS, Entry.operation, opSList_fst cs]

theorem opSList_fst : ∀ cs : List Entry, (operationSList cs).1 = operationList cs
  | [] => rfl
  | c :: cs => by rw [operationSList, operationList]; simp [opS_fst c, opSList_fst cs]

end

theorem folder_opS_snd (fo : Folder) : fo.operationS.2 = fo := by
  cases fo; simp [Folder.operationS, opSList_snd]

theorem folder_opS_fst (fo : Folder) : fo.operationS.1 = fo.operation := by
  simp [Folder.operationS, Folder.operation, opSList_fst]

mutual

theorem opData_eq : ∀ e : Entry, (Entry.operation e).data = opData e
  | .file _ => rfl
  | .folder n p cs => by
      rw [Entry.operation, opData]
      simp [opDataList_eq cs]

theorem opDataList_eq : ∀ cs : List Entry,
    (joinPlus (operationList cs)).data = opDataList cs
  | [] => rfl
  | [c] => by
      simp only [operationList, joinPlus, opDataList]
      exact opData_eq c
  | c :: c2 :: cs => by
      have ih : (joinPlus (Entry.operation c2 :: operationList cs)).data =
          opDataList (c2 :: cs) := opDataList_eq (c2 :: cs)
      rw [opDataList]
      rw [show operationList (c :: c2 :: cs) =
        Entry.operation c :: Entry.operation c2 :: operationList cs from rfl]
      rw [show joinPlus (Entry.operation c :: Entry.operation c2 :: operationList cs) =
        Entry.operation c ++ "+" ++ joinPlus (Entry.operation c2 :: operationList cs) from rfl]
      simp only [String.data_append, ih, opData_eq c]
      simp

end

/-- The first character printed for an entry is L for a file and B for a
folder; in particular it is never a parenthesis or separator. -/
theorem opData_cons : ∀ e : Entry,
    (∃ t, opData e = 'L' :: t) ∨ (∃ t, opData e = 'B' :: t)
  | .file _ => .inl ⟨_, rfl⟩
  | .folder _ _ cs => .inr ⟨_, by rw [opData]; rfl⟩

/-- The printed join of a nonempty child list starts with the printed
first child. -/
theorem opDataList_split (c : Entry) (cs : List Entry) :
    ∃ u, opDataList (c :: cs) = opData c ++ u := by
  cases cs with
  | nil => exact ⟨[], by rw [opDataList]; simp⟩
  | cons c2 cs => exact ⟨_, by rw [opDataList]⟩

theorem take4_cons (a b c d : Char) (t : List Char) :
    (a :: b :: c :: d :: t).take 4 = [a, b, c, d] := rfl

theorem drop4_cons (a b c d : Char) (t : List Char) :
    (a :: b :: c :: d :: t).drop 4 = t := rfl

theorem take7_cons (a b c d e f g : Char) (t : List Char) :
    (a :: b :: c :: d :: e :: f :: g :: t).take 7 = [a, b, c, d, e, f, g] := rfl

theorem drop7_cons (a b c d e f g : Char) (t : List Char) :
    (a :: b :: c :: d :: e :: f :: g :: t).drop 7 = t := rfl

theorem take1_cons (a : Char) (t : List Char) : (a :: t).take 1 = [a] := rfl

theorem drop1_cons (a : Char) (t : List Char) : (a :: t).drop 1 = t := rfl

mutual

theorem parse_round : ∀ (e : Entry) (rest : List Char) (n : Nat), esize e ≤ n →
    parseF n (opData e ++ rest) = some (shapeOf e, rest)
  | .file _, rest, n + 1, _ => by
      rw [opData, shapeOf, parseF]
      simp only [List.cons_append, List.nil_append, take4_cons, drop4_cons]
      simp
  | .folder nm p [], rest, n + 1, _ => by
      rw [opData, opDataList, shapeOf, shapeOfList, parseF]
      simp only [List.nil_append, List.append_nil, List.append_assoc,
        List.cons_append, take4_cons, take7_cons, drop7_cons, take1_cons, drop1_cons]
      simp
  | .folder nm p (c :: cs), rest, n + 1, h => by
      rw [esize] at h
      have hl : lsize (c :: cs) ≤ n := by omega
      have hrec := parseList_round c cs rest n hl
      obtain ⟨u, hu⟩ := opDataList_split c cs
      rw [opData, shapeOf, parseF]
      rw [hu] at hrec ⊢
      rcases opData_cons c with ⟨t, ht⟩ | ⟨t, ht⟩
      · rw [ht] at hrec ⊢
        simp only [List.append_assoc, List.cons_append, List.nil_append] at hrec ⊢
        rw [take4_cons, if_neg (by decide), take7_cons, if_pos rfl,
          drop7_cons, take1_cons, if_neg (by decide), hrec]
        simp only [Option.some_bind, take1_cons, drop1_cons]
        rw [if_pos trivial]
      · rw [ht] at hrec ⊢
        simp only [List.append_assoc, List.cons_append, List.nil_append] at hrec ⊢
        rw [take4_cons, if_neg (by decide), take7_cons, if_pos rfl,
          drop7_cons, take1_cons, if_neg (by decide), hrec]
        simp only [Option.some_bind, take1_cons, drop1_cons]
        rw [if_pos trivial]

theorem parseList_round : ∀ (c : Entry) (cs : List Entry) (rest : List Char) (n : Nat),
    lsize (c :: cs) ≤ n →
    parseListF n (opDataList (c :: cs) ++ ')' :: rest) =
      some (shapeOfList (c :: cs), ')' :: rest)
  | c, [], rest, n + 1, h => by
      rw [lsize, lsize] at h
      have he : esize c ≤ n := by omega
      rw [opDataList, parseListF, parse_round c (')' :: rest) n he, shapeOfList, shapeOfList]
      simp only [Option.some_bind, take1_cons]
      rw [if_neg (by decide)]
  | c, c2 :: cs, rest, n + 1, h => by
      rw [lsize] at h
      have he : esize c ≤ n := by omega
      have hl : lsize (c2 :: cs) ≤ n := by omega
      have hrec := parseList_round c2 cs rest n hl
      rw [opDataList, parseListF, List.append_assoc, List.cons_append,
        parse_round c ('+' :: (opDataList (c2 :: cs) ++ ')' :: rest)) n he, shapeOfList]
      simp only [Option.some_bind, take1_cons, drop1_cons]
      rw [if_pos trivial, hrec]
      rfl

end

/-- Unwrapping the fixed Branch frame: equal wrapped results have equal
joins. -/
theorem branch_wrap_inj {x y : String}
    (h : "Branch(" ++ x ++ ")" = "Branch(" ++ y ++ ")") : x = y := by
  apply string_ext
  have hd := congrArg String.data h
  simp only [String.data_append] at hd
  exact List.append_cancel_left (List.append_cancel_right hd)

/-- Unique decodability of the printed output: if the two-child joins in
both insertion orders coincide, the two children print identically. -/
theorem plus_join_swap_inj {a b : Entry}
    (h : Entry.operation a ++ "+" ++ Entry.operation b =
      Entry.operation b ++ "+" ++ Entry.operation a) :
    Entry.operation a = Entry.operation b := by
  have hd := congrArg String.data h
  simp only [String.data_append, opData_eq] at hd
  simp only [List.append_assoc, List.singleton_append] at hd
  have h1 := parse_round a ('+' :: opData b) (esize a + esize b) (Nat.le_add_right _ _)
  have h2 := parse_round b ('+' :: opData a) (esize a + esize b) (Nat.le_add_left _ _)
  rw [hd, h2] at h1
  have h5 : opData a = opData b := by
    simpa using congrArg Prod.snd (Option.some.inj h1)
  apply string_ext
  rw [opData_eq, opData_eq, h5]

/-- The spec scenario: root with Leaf a.txt and a subfolder holding Leaf
b.txt evaluates to the nested branch form. -/
theorem spec_scenario :
    (Folder.mk "root" none [.file ⟨"a.txt", .str "hi"⟩,
      .folder "sub" none [.file ⟨"b.txt", .str "x"⟩]]).operation
      = "Branch(Leaf+Branch(Leaf))" := by decide

/-! ## Claim theorems -/

/-- Claim C1: for every Folder, operation() returns the string Branch(
followed by the operation() results of the children in insertion order
joined with the separator +, followed by ); in particular with children
[a, b] the result is Branch( ++ a.operation ++ + ++ b.operation ++ ). -/
theorem claim_C1 (fo : Folder) :
    fo.operation =
      "Branch(" ++ String.intercalate "+" (fo._list_children.map Entry.operation) ++ ")" ∧
    ∀ a b : Entry,
      Folder.operation { fo with _list_children := [a, b] } =
        "Branch(" ++ a.operation ++ "+" ++ b.operation ++ ")" := by
  constructor
  · rw [Folder.operation, operationList_eq_map, joinPlus_eq_intercalate]
  · intro a b
    simp [Folder.operation, operationList, joinPlus, sappend_assoc]

/-- Claim C2, counterexample: remove_file does not remove a present child.
In a Folder whose children are exactly [sampleFile], removing precisely
that child leaves the child collection unchanged and nonempty, although the
claim requires the first matching child to be removed. -/
theorem claim_C2_counterexample :
    (sampleFolder.remove_file sampleFile)._list_children = [.file sampleFile] ∧
    ([Entry.file sampleFile] : List Entry) ≠ [] :=
  ⟨rfl, by simp⟩

/-- Claim C2, amended: remove_file and remove_folder are unconditional
no-ops: the body of both is pass, so the Folder is returned unchanged and
no error is signaled, whether or not the given child is present; in
particular removing an absent child silently succeeds, but a present child
is not removed either. -/
theorem claim_C2 (fo : Folder) (f : File) (sub : Folder) :
    fo.remove_file f = fo ∧ fo.remove_folder sub = fo :=
  ⟨rfl, rfl⟩

/-- Claim C3, counterexample: removing a child then evaluating does not
exclude the contribution of the child. With children exactly [sampleFile],
after remove_file the evaluation still shows the leaf, and differs from the
evaluation of the folder with the child deleted. -/
theorem claim_C3_counterexample :
    (sampleFolder.remove_file sampleFile).operation = "Branch(Leaf)" ∧
    Folder.operation { sampleFolder with _list_children := [] } = "Branch()" ∧
    (sampleFolder.remove_file sampleFile).operation ≠
      Folder.operation { sampleFolder with _list_children := [] } :=
  ⟨rfl, rfl, by decide⟩

/-- Claim C3, amended: calling remove_file or remove_folder and then
evaluating yields exactly the evaluation of the unchanged folder: the
removed child still contributes, because the remove methods are no-ops. -/
theorem claim_C3 (fo : Folder) (f : File) (sub : Folder) :
    (fo.remove_file f).operation = fo.operation ∧
    (fo.remove_folder sub).operation = fo.operation :=
  ⟨rfl, rfl⟩

/-- Claim C4: for every File, whatever its name and content, operation()
returns the fixed marker string Leaf; it is a total pure function of the
receiver alone, so it has no side effects and cannot fail. -/
theorem claim_C4 (f : File) : f.operation = "Leaf" := rfl

/-- Claim C5: every Folder whose child collection is empty evaluates to the
wrapped-but-empty form Branch(). -/
theorem claim_C5 (fo : Folder) (h : fo._list_children = []) :
    fo.operation = "Branch()" := by
  rw [Folder.operation, h]; decide

/-- Claim C5, witness: a freshly constructed Folder has no children and
evaluates to Branch(). -/
theorem claim_C5_witness :
    (Folder.init "root")._list_children = [] ∧
    (Folder.init "root").operation = "Branch()" :=
  ⟨rfl, claim_C5 (Folder.init "root") rfl⟩

/-- Claim C6, counterexample: swapping the insertion order of two distinct
children does not always change the result. Two distinct Files both
evaluate to Leaf, so the folder holding them evaluates to Branch(Leaf+Leaf)
in either insertion order. -/
theorem claim_C6_counterexample :
    File.mk "a.txt" (.str "hi") ≠ File.mk "b.txt" (.str "xx") ∧
    Folder.operation ⟨"root", none, [.file ⟨"a.txt", .str "hi"⟩, .file ⟨"b.txt", .str "xx"⟩]⟩ =
      Folder.operation ⟨"root", none, [.file ⟨"b.txt", .str "xx"⟩, .file ⟨"a.txt", .str "hi"⟩]⟩ :=
  ⟨by decide, rfl⟩

/-- Claim C6, amended: add_file and add_folder append the given child at
the end of the ordered child collection without any cycle check, and the
join order of the evaluation results matches the insertion order; swapping
the insertion order of two children changes the result deterministically
exactly when the two children have distinct evaluation results, and leaves
it unchanged when the results are equal (for example two Files). -/
theorem claim_C6 (fo : Folder) (f : File) (sub : Folder) (a b : Entry) :
    (fo.add_file f)._list_children = fo._list_children ++ [.file f] ∧
    (fo.add_folder sub)._list_children = fo._list_children ++ [sub.toEntry] ∧
    Folder.operation { fo with _list_children := [a, b] } =
      "Branch(" ++ Entry.operation a ++ "+" ++ Entry.operation b ++ ")" ∧
    (Folder.operation { fo with _list_children := [a, b] } =
        Folder.operation { fo with _list_children := [b, a] } ↔
      Entry.operation a = Entry.operation b) := by
  refine ⟨rfl, rfl, ?_, ?_, ?_⟩
  · simp [Folder.operation, operationList, joinPlus, sappend_assoc]
  · intro h
    simp only [Folder.operation, operationList, joinPlus] at h
    exact plus_join_swap_inj (branch_wrap_inj h)
  · intro h
    simp [Folder.operation, operationList, joinPlus, h]

/-- Claim C7: evaluation does not change the tree it visits, and calling
it twice on an unmodified tree yields identical results; the state-passing
result also agrees with the direct evaluation. -/
theorem claim_C7 (fo : Folder) :
    fo.operationS.2 = fo ∧
    fo.operationS.2.operationS.1 = fo.operationS.1 ∧
    fo.operationS.1 = fo.operation ∧
    ∀ e : Entry, e.operationS.2 = e ∧ e.operationS.2.operationS.1 = e.operationS.1 :=
  ⟨folder_opS_snd fo, by rw [folder_opS_snd], folder_opS_fst fo,
   fun e => ⟨opS_snd e, by rw [opS_snd]⟩⟩

theorem rankOk_spec {st : Store} {rank : List Nat} (h : rankOk st rank = true) :
    ∀ i j, GChild.ref j ∈ childrenOf st i → rank.getD j 0 < rank.getD i 0 := by
  intro i j hj
  by_cases hi : i < st.length
  · rw [rankOk, List.all_eq_true] at h
    have := h i (List.mem_range.mpr hi)
    rw [List.all_eq_true] at this
    simpa using this _ hj
  · rw [childrenOf, List.getD_eq_default _ _ (Nat.le_of_not_lt hi)] at hj
    simp at hj

theorem opFuelChildren_total (ev : Nat → Option String)
    (cs : List GChild) (h : ∀ j, GChild.ref j ∈ cs → (ev j).isSome = true) :
    (opFuelChildren ev cs).isSome = true := by
  induction cs with
  | nil => rfl
  | cons c cs ih =>
      cases c with
      | file f =>
          have := ih fun j hj => h j (List.mem_cons_of_mem _ hj)
          rw [opFuelChildren]
          simpa using this
      | ref j =>
          have hj := h j (List.mem_cons_self _ _)
          obtain ⟨s, hs⟩ := Option.isSome_iff_exists.mp hj
          have := ih fun j' hj' => h j' (List.mem_cons_of_mem _ hj')
          rw [opFuelChildren, hs]
          simpa using this

/-- With fuel strictly above the rank of the folder, evaluation on an
acyclic store completes. -/
theorem opFuel_total (st : Store) (rank : List Nat)
    (h : rankOk st rank = true) :
    ∀ n id, rank.getD id 0 < n → (opFuel st n id).isSome = true := by
  intro n
  induction n with
  | zero => intro id hid; exact absurd hid (Nat.not_lt_zero _)
  | succ n ih =>
      intro id hid
      have hch : (opFuelChildren (fun j => opFuel st n j) (childrenOf st id)).isSome = true := by
        refine opFuelChildren_total _ _ fun j hj => ih j ?_
        exact Nat.lt_of_lt_of_le (rankOk_spec h id j hj) (Nat.lt_succ_iff.mp hid)
      rw [opFuel]
      simpa using hch

/-- Claim C8: on every object graph free of cycles, witnessed by a rank
that strictly decreases from each folder to the folders it references,
operation() terminates: evaluation with fuel one above the rank of the
starting folder returns a result instead of exhausting the fuel. -/
theorem claim_C8 (st : Store) (rank : List Nat)
    (h : rankOk st rank = true) (id : Nat) :
    (opFuel st (rank.getD id 0 + 1) id).isSome = true :=
  opFuel_total st rank h _ id (Nat.lt_succ_self _)

/-- Claim C8, witness: a two-folder store, folder 0 holding a file and a
reference to the empty folder 1, with ranks [1, 0]. -/
theorem claim_C8_witness :
    rankOk [[.file ⟨"a.txt", .str "hi"⟩, .ref 1], []] [1, 0] = true ∧
    (opFuel [[.file ⟨"a.txt", .str "hi"⟩, .ref 1], []]
      (([1, 0] : List Nat).getD 0 0 + 1) 0).isSome = true :=
  ⟨by decide, claim_C8 [[.file ⟨"a.txt", .str "hi"⟩, .ref 1], []] [1, 0] (by decide) 0⟩

mutual

theorem operation_of_sameShape : ∀ (a b : Entry),
    sameShape a b = true → a.operation = b.operation
  | .file _, .file _, _ => rfl
  | .folder _ _ cs, .folder _ _ ds, h => by
      rw [Entry.operation, Entry.operation,
        operationList_of_sameShapeList cs ds (by simpa [sameShape] using h)]
  | .file _, .folder _ _ _, h => by simp [sameShape] at h
  | .folder _ _ _, .file _, h => by simp [sameShape] at h

theorem operationList_of_sameShapeList : ∀ (cs ds : List Entry),
    sameShapeList cs ds = true → operationList cs = operationList ds
  | [], [], _ => rfl
  | c :: cs, d :: ds, h => by
      rw [sameShapeList, Bool.and_eq_true] at h
      rw [operationList, operationList, operation_of_sameShape c d h.1,
        operationList_of_sameShapeList cs ds h.2]
  | [], _ :: _, h => by simp [sameShapeList] at h
  | _ :: _, [], h => by simp [sameShapeList] at h

end

/-- Claim C9: the result of evaluation depends only on the shape of the
tree: two trees with the same nesting structure of folders and files, but
arbitrarily different names, contents and parent references, evaluate to
the same string. -/
theorem claim_C9 (a b : Entry) (h : sameShape a b = true) :
    a.operation = b.operation :=
  operation_of_sameShape a b h

/-- Claim C9, witness: two concrete trees with the same shape but entirely
different names, contents and parent references evaluate identically. -/
theorem claim_C9_witness :
    sameShape
      (.folder "root" none [.file ⟨"a.txt", .str "hi"⟩,
        .folder "sub" (some 3) [.file ⟨"b.txt", .str "x"⟩]])
      (.folder "X" (some 7) [.file ⟨"c.bin", .bytes [0, 255]⟩,
        .folder "Y" none [.file ⟨"d", .str "zzz"⟩]]) = true ∧
    (Entry.folder "root" none [.file ⟨"a.txt", .str "hi"⟩,
        .folder "sub" (some 3) [.file ⟨"b.txt", .str "x"⟩]]).operation =
      (Entry.folder "X" (some 7) [.file ⟨"c.bin", .bytes [0, 255]⟩,
        .folder "Y" none [.file ⟨"d", .str "zzz"⟩]]).operation :=
  ⟨by decide, claim_C9 _ _ (by decide)⟩

/-- Claim C10: for every Folder and every argument, remove_file and
remove_folder leave the name, the parent reference and the child
collection exactly as they were. -/
theorem claim_C10 (fo : Folder) (f : File) (sub : Folder) :
    (fo.remove_file f).name = fo.name ∧
    (fo.remove_file f).parent = fo.parent ∧
    (fo.remove_file f)._list_children = fo._list_children ∧
    (fo.remove_folder sub).name = fo.name ∧
    (fo.remove_folder sub).parent = fo.parent ∧
    (fo.remove_folder sub)._list_children = fo._list_children :=
  ⟨rfl, rfl, rfl, rfl, rfl, rfl⟩

end Composite
